import Mathlib

/-!
Verification of the protobuf wire-format emitter in
llvm/include/llvm/Support/Protobuf.h.

The emitter only ever appends bytes to its output iterator, so every
emitting member function is modelled as a pure function returning the
list of bytes (as natural numbers below 256) that the call appends.
Machine integers are modelled as Nat (unsigned) or Int (signed) with
explicit reductions modulo 2 ^ 64 (or the relevant width) exactly where
the C++ performs a conversion or where unsigned arithmetic wraps.
-/

namespace protobuf

/-- Value of `static_cast<std::uint64_t>(v)` for a signed 64-bit value `v`:
the two's-complement reduction of `v` modulo 2 ^ 64. -/
def toUInt64 (v : Int) : Nat := (v % (2 ^ 64 : Int)).toNat

/-- MinField from Protobuf.h: least valid field number. -/
def MinField : Nat := 1

/-- MaxField from Protobuf.h: greatest valid field number (2 ^ 29 - 1). -/
def MaxField : Nat := 536870911

/-- WireType enumeration from Protobuf.h. -/
inductive WireType
  | VarInt
  | I64
  | LengthDelimited
  | StartGroup
  | EndGroup
  | I32
deriving DecidableEq

/-- Numeric value of each wire type (the `std::uint8_t` underlying value). -/
def WireType.toUnderlying : WireType → Nat
  | .VarInt => 0
  | .I64 => 1
  | .LengthDelimited => 2
  | .StartGroup => 3
  | .EndGroup => 4
  | .I32 => 5

/-- convertToZigZag from Protobuf.h: `UnsignedValue` is the uint64 image of
`Value`; for nonnegative values the result is `UnsignedValue << 1` (wrapping
at 64 bits), otherwise the bitwise complement `~(UnsignedValue << 1)`,
which on uint64 equals 2 ^ 64 - 1 minus the shifted value. -/
def convertToZigZag (v : Int) : Nat :=
  let u : Nat := toUInt64 v
  if 0 ≤ v then
    u * 2 % 2 ^ 64
  else
    2 ^ 64 - 1 - u * 2 % 2 ^ 64

/-- calculateVarIntLength from Protobuf.h: chain of right-shift tests. -/
def calculateVarIntLength (v : Nat) : Nat :=
  if v >>> 7 = 0 then 1
  else if v >>> 14 = 0 then 2
  else if v >>> 21 = 0 then 3
  else if v >>> 28 = 0 then 4
  else if v >>> 35 = 0 then 5
  else if v >>> 42 = 0 then 6
  else if v >>> 49 = 0 then 7
  else if v >>> 56 = 0 then 8
  else if v >>> 63 = 0 then 9
  else 10

/-- calculateVarIntPackedLength from Protobuf.h: `std::accumulate` of the
per-element varint lengths, starting from 0.  Elements are given as their
uint64 images, the same conversion the emitting loop applies. -/
def calculateVarIntPackedLength (xs : List Nat) : Nat :=
  xs.foldl (fun len v => len + calculateVarIntLength v) 0

/-- calculateSignedVarIntPackedLength from Protobuf.h: `std::accumulate` of
the varint lengths of the ZigZag images, starting from 0.  Elements are given
as their int64 images, the same conversion the emitting loop applies. -/
def calculateSignedVarIntPackedLength (xs : List Int) : Nat :=
  xs.foldl (fun len v => len + calculateVarIntLength (convertToZigZag v)) 0

/-- One pass of the loop body of `Emitter::emitVarIntRaw`.  The C++ loop
runs while `BytesEmitted <= 9`; `fuel` is the number of iterations that
bound still allows.  Each iteration takes the low 7 bits as the payload,
shifts the value right by 7, sets the continuation bit 0x80 when bits
remain, emits the byte, and stops as soon as the remaining value is 0. -/
def emitVarIntRawLoop : Nat → Nat → List Nat
  | _, 0 => []
  | v, fuel + 1 =>
    let payload := v &&& 127
    let rest := v >>> 7
    let byte := if rest ≠ 0 then payload ||| 128 else payload
    if rest = 0 then [byte] else byte :: emitVarIntRawLoop rest fuel

/-- Emitter::emitVarIntRaw from Protobuf.h: little-endian base-128
encoding, at most 10 bytes (the loop condition is `BytesEmitted <= 9`). -/
def emitVarIntRaw (v : Nat) : List Nat := emitVarIntRawLoop v 10

/-- Tag value computed by `Emitter::emitTag`:
`(static_cast<std::uint32_t>(Field) << 3) + to_underlying(WType)` in
uint32 arithmetic. -/
def makeTag (f : Nat) (w : Nat) : Nat := (f % 2 ^ 32 * 8 + w) % 2 ^ 32

/-- Emitter::emitTag from Protobuf.h: emits the tag as a varint. -/
def emitTag (w : WireType) (f : Nat) : List Nat :=
  emitVarIntRaw (makeTag f w.toUnderlying)

/-- Byte order of the host, deciding what
`reinterpret_cast<const std::byte *>(&Value)` reads. -/
inductive Endian
  | little
  | big
deriving DecidableEq

/-- Object representation of a `width`-byte unsigned integer holding value
`v`, as traversed by `Emitter::emitRawBytes` over
`reinterpret_cast<const std::byte *>(&Value)`: the base-256 digits of `v`,
least significant first on a little-endian host and most significant first
on a big-endian host. -/
def bytesOfValue (e : Endian) (width : Nat) (v : Nat) : List Nat :=
  let le := (List.range width).map fun i => v / 256 ^ i % 256
  match e with
  | .little => le
  | .big => le.reverse

/-- Emitter::emitVarInt from Protobuf.h: VarInt tag, then the raw varint. -/
def emitVarInt (f : Nat) (v : Nat) : List Nat :=
  emitTag .VarInt f ++ emitVarIntRaw v

/-- Emitter::emitSignedVarInt from Protobuf.h: VarInt tag, then the raw
varint of the ZigZag image. -/
def emitSignedVarInt (f : Nat) (v : Int) : List Nat :=
  emitTag .VarInt f ++ emitVarIntRaw (convertToZigZag v)

/-- Emitter::emitLen from Protobuf.h: LengthDelimited tag, byte count as a
varint, then the raw bytes. -/
def emitLen (f : Nat) (bytes : List Nat) : List Nat :=
  emitTag .LengthDelimited f ++ emitVarIntRaw bytes.length ++ bytes

/-- Emitter::emitI32 from Protobuf.h: I32 tag, then the 4 bytes of the
value's object representation (host byte order, see bytesOfValue). -/
def emitI32 (e : Endian) (f : Nat) (v : Nat) : List Nat :=
  emitTag .I32 f ++ bytesOfValue e 4 v

/-- Emitter::emitI64 from Protobuf.h: I64 tag, then the 8 bytes of the
value's object representation (host byte order, see bytesOfValue). -/
def emitI64 (e : Endian) (f : Nat) (v : Nat) : List Nat :=
  emitTag .I64 f ++ bytesOfValue e 8 v

/-- Emitter::emitVarIntPacked from Protobuf.h: LengthDelimited tag, the
accumulated varint length as a varint, then each element (already converted
to its uint64 image, as by `static_cast<std::uint64_t>(Item)`) as a raw
varint. -/
def emitVarIntPacked (f : Nat) (xs : List Nat) : List Nat :=
  emitTag .LengthDelimited f
    ++ emitVarIntRaw (calculateVarIntPackedLength xs)
    ++ xs.flatMap (fun x => emitVarIntRaw x)

/-- Emitter::emitSignedVarIntPacked from Protobuf.h: LengthDelimited tag,
the accumulated ZigZag varint length as a varint, then each element
(converted to its int64 image) ZigZag-encoded as a raw varint. -/
def emitSignedVarIntPacked (f : Nat) (xs : List Int) : List Nat :=
  emitTag .LengthDelimited f
    ++ emitVarIntRaw (calculateSignedVarIntPackedLength xs)
    ++ xs.flatMap (fun x => emitVarIntRaw (convertToZigZag x))

/-- Emitter::emitI32Packed from Protobuf.h: LengthDelimited tag,
`Value.size() * sizeof(std::uint32_t)` as a varint, then the 4-byte object
representation of each element's uint32 image. -/
def emitI32Packed (e : Endian) (f : Nat) (xs : List Nat) : List Nat :=
  emitTag .LengthDelimited f
    ++ emitVarIntRaw (xs.length * 4)
    ++ xs.flatMap (fun x => bytesOfValue e 4 x)

/-- Emitter::emitI64Packed from Protobuf.h: LengthDelimited tag,
`Value.size() * sizeof(std::uint64_t)` as a varint, then the 8-byte object
representation of each element's uint64 image. -/
def emitI64Packed (e : Endian) (f : Nat) (xs : List Nat) : List Nat :=
  emitTag .LengthDelimited f
    ++ emitVarIntRaw (xs.length * 8)
    ++ xs.flatMap (fun x => bytesOfValue e 8 x)

/-- Emitter::emitEnumPacked from Protobuf.h: LengthDelimited tag, then
`Value.size()` (the element count of the container) as a varint, then each
element's uint64 image as a raw varint.  (The loop body also re-reads the
container as `toIntegral(Value)` for its assertion; that statement emits no
bytes and does not type-check for container arguments.) -/
def emitEnumPacked (f : Nat) (xs : List Int) : List Nat :=
  emitTag .LengthDelimited f
    ++ emitVarIntRaw xs.length
    ++ xs.flatMap (fun x => emitVarIntRaw (toUInt64 x))

/-- Builder::emitInt32 from Protobuf.h: delegates to emitVarInt; the int32
argument is converted to uint64 with sign extension. -/
def emitInt32 (f : Nat) (v : Int) : List Nat := emitVarInt f (toUInt64 v)

/-- Builder::emitInt64 from Protobuf.h: delegates to emitVarInt; the int64
argument is converted to uint64 with sign extension. -/
def emitInt64 (f : Nat) (v : Int) : List Nat := emitVarInt f (toUInt64 v)

/-- Builder::emitUInt64 from Protobuf.h: delegates to emitVarInt. -/
def emitUInt64 (f : Nat) (v : Nat) : List Nat := emitVarInt f v

/-- Builder::emitSInt32 from Protobuf.h: delegates to emitSignedVarInt. -/
def emitSInt32 (f : Nat) (v : Int) : List Nat := emitSignedVarInt f v

/-- Builder::emitBool from Protobuf.h: emitVarInt of the bool's uint64
image. -/
def emitBool (f : Nat) (b : Bool) : List Nat :=
  emitVarInt f (if b then 1 else 0)

/-- Builder::emitFixed32 from Protobuf.h: delegates to emitI32. -/
def emitFixed32 (e : Endian) (f : Nat) (v : Nat) : List Nat := emitI32 e f v

/-- Builder::emitFixed64 from Protobuf.h: delegates to emitI64. -/
def emitFixed64 (e : Endian) (f : Nat) (v : Nat) : List Nat := emitI64 e f v

/-- Builder::emitString from Protobuf.h: delegates to emitLen on the
string's bytes. -/
def emitString (f : Nat) (s : List Nat) : List Nat := emitLen f s

/-- Builder::emitInt32Repeated from Protobuf.h: a loop appending
`Emitter.emitVarInt(Field, Item)` for each element (each item's type fits
in int32, and is converted to uint64 with sign extension). -/
def emitInt32Repeated (f : Nat) (xs : List Int) : List Nat :=
  xs.foldl (fun out v => out ++ emitVarInt f (toUInt64 v)) []

/-- Builder::emitUInt64Repeated from Protobuf.h: a loop appending
`Emitter.emitVarInt(Field, Item)` for each element. -/
def emitUInt64Repeated (f : Nat) (xs : List Nat) : List Nat :=
  xs.foldl (fun out v => out ++ emitVarInt f v) []

/-- Builder::emitSInt32Repeated from Protobuf.h: a loop appending
`Emitter.emitSignedVarInt(Field, Item)` for each element. -/
def emitSInt32Repeated (f : Nat) (xs : List Int) : List Nat :=
  xs.foldl (fun out v => out ++ emitSignedVarInt f v) []

/-- Builder::emitBoolRepeated from Protobuf.h: a loop appending
`emitBool(Field, Item)` for each element. -/
def emitBoolRepeated (f : Nat) (xs : List Bool) : List Nat :=
  xs.foldl (fun out b => out ++ emitBool f b) []

/-- Builder::emitFixed32Repeated from Protobuf.h: a loop appending
`Emitter.emitI32(Field, Item)` for each element. -/
def emitFixed32Repeated (e : Endian) (f : Nat) (xs : List Nat) : List Nat :=
  xs.foldl (fun out v => out ++ emitI32 e f v) []

/-- Builder::emitFixed64Repeated from Protobuf.h: a loop appending
`Emitter.emitI64(Field, Item)` for each element. -/
def emitFixed64Repeated (e : Endian) (f : Nat) (xs : List Nat) : List Nat :=
  xs.foldl (fun out v => out ++ emitI64 e f v) []

/-- Builder::emitStringRepeated from Protobuf.h: a loop appending
`emitString(Field, Item)` for each element. -/
def emitStringRepeated (f : Nat) (xs : List (List Nat)) : List Nat :=
  xs.foldl (fun out s => out ++ emitString f s) []

/-- Modelled from the spec: `decode_varint`, the decoder-side reading of a
little-endian base-128 varint (the source contains only the emitter; the
spec's testable property 8.1 quantifies over this decoding).  Each byte
contributes its low 7 bits, least significant group first. -/
def decodeVarint : List Nat → Nat
  | [] => 0
  | b :: rest => b % 128 + 128 * decodeVarint rest

/-- Modelled from the spec: decoding of the first varint of a byte stream
(spec 8.4 speaks of "the first varint decoded from the emitter's output"):
bytes contribute their low 7 bits, least significant group first, stopping
at the first byte whose continuation bit 0x80 is clear. -/
def decodeFirstVarint : List Nat → Nat
  | [] => 0
  | b :: rest => if b < 128 then b % 128 else b % 128 + 128 * decodeFirstVarint rest

/-- Modelled from the spec: `unzigzag`, the decoder-side inverse of the
ZigZag transform (the source contains only the encoder).  Per the spec's
interleaving 0 to 0, 1 to -1, 2 to 1, 3 to -2, and so on: even values map
to their half, odd values to minus their half minus one. -/
def unZigZag (u : Nat) : Int :=
  if u % 2 = 0 then (u / 2 : Nat) else -((u / 2 : Nat) : Int) - 1

/-- Formula from the spec and the source's own comment: the ZigZag image of
`n` is `(n << 1) ^ (n >> 63)` on int64, where `n << 1` wraps at 64 bits,
`n >> 63` is the arithmetic shift (all ones exactly when `n` is negative),
and `^` is bitwise xor of the two's-complement representations. -/
def zigZagFormula (v : Int) : Nat :=
  toUInt64 (2 * v) ^^^ toUInt64 (if v < 0 then -1 else 0)

/-- Number of base-128 digits of `v` (at least one); helper for the varint
length lemmas. -/
def base128len (v : Nat) : Nat :=
  if v < 128 then 1 else 1 + base128len (v >>> 7)
termination_by v
decreasing_by
  simp only [Nat.shiftRight_eq_div_pow]
  exact Nat.div_lt_self (by omega) (by norm_num)

theorem and127_eq_mod (v : Nat) : v &&& 127 = v % 128 := by
  have h := Nat.and_pow_two_sub_one_eq_mod v 7
  norm_num at h
  exact h

theorem shiftRight7_eq (v : Nat) : v >>> 7 = v / 128 := by
  rw [Nat.shiftRight_eq_div_pow]

theorem shiftRight_eq_zero_iff (v n : Nat) : v >>> n = 0 ↔ v < 2 ^ n := by
  rw [Nat.shiftRight_eq_div_pow]
  exact Nat.div_eq_zero_iff (Nat.two_pow_pos n)

theorem or128_eq_add (p : Nat) (h : p < 128) : p ||| 128 = p + 128 := by
  have h1 : (2 : Nat) ^ 7 * 1 + p = 2 ^ 7 * 1 ||| p :=
    Nat.mul_add_lt_is_or (show p < 2 ^ 7 by omega) 1
  rw [Nat.lor_comm] at h1
  norm_num at h1
  omega

theorem emitVarIntRawLoop_last (v n : Nat) (h0 : v >>> 7 = 0) :
    emitVarIntRawLoop v (n + 1) = [v % 128] := by
  simp only [emitVarIntRawLoop, h0, ne_eq, not_true_eq_false, ite_false,
    ite_true, and127_eq_mod]

theorem emitVarIntRawLoop_cons (v n : Nat) (h0 : ¬v >>> 7 = 0) :
    emitVarIntRawLoop v (n + 1) =
      (v % 128 + 128) :: emitVarIntRawLoop (v >>> 7) n := by
  simp only [emitVarIntRawLoop, h0, ne_eq, not_false_eq_true, ite_true,
    ite_false, and127_eq_mod]
  rw [or128_eq_add _ (Nat.mod_lt _ (by norm_num))]

theorem emitVarIntRawLoop_spec (fuel : Nat) :
    ∀ v : Nat, 0 < fuel → v < 128 ^ fuel →
      decodeVarint (emitVarIntRawLoop v fuel) = v ∧
      (emitVarIntRawLoop v fuel).length = base128len v ∧
      ∀ rest, decodeFirstVarint (emitVarIntRawLoop v fuel ++ rest) = v := by
  induction fuel with
  | zero => intro v h; exact absurd h (by omega)
  | succ n ih =>
    intro v _ hv
    have hsr : v >>> 7 = v / 128 := shiftRight7_eq v
    by_cases h0 : v >>> 7 = 0
    · have hvlt : v < 128 := by
        rw [hsr] at h0
        omega
      have hb : base128len v = 1 := by
        rw [base128len]
        simp [hvlt]
      have hmod : v % 128 = v := Nat.mod_eq_of_lt hvlt
      rw [emitVarIntRawLoop_last v n h0, hmod]
      refine ⟨by simp [decodeVarint, hmod], by simp [hb], ?_⟩
      intro rest
      simp [decodeFirstVarint, hvlt, hmod]
    · have hge : 128 ≤ v := by
        have h1 := h0
        rw [hsr] at h1
        omega
      have hn : 0 < n := by
        rcases Nat.eq_zero_or_pos n with h | h
        · subst h
          norm_num at hv
          omega
        · exact h
      have hlt : v >>> 7 < 128 ^ n := by
        rw [hsr]
        apply Nat.div_lt_of_lt_mul
        have hp : (128 : Nat) ^ (n + 1) = 128 * 128 ^ n := pow_succ' 128 n
        omega
      obtain ⟨ihd, ihl, ihf⟩ := ih (v >>> 7) hn hlt
      have hb : base128len v = 1 + base128len (v >>> 7) := by
        rw [base128len]
        simp [show ¬v < 128 by omega]
      rw [emitVarIntRawLoop_cons v n h0]
      refine ⟨?_, ?_, ?_⟩
      · simp only [decodeVarint, ihd]
        omega
      · rw [List.length_cons, ihl, hb]
        omega
      · intro rest
        rw [List.cons_append]
        simp only [decodeFirstVarint]
        rw [if_neg (show ¬v % 128 + 128 < 128 by omega), ihf rest]
        omega

theorem base128len_le (L : Nat) :
    ∀ v : Nat, 0 < L → v < 128 ^ L → base128len v ≤ L := by
  induction L with
  | zero => intro v h; exact absurd h (by omega)
  | succ n ih =>
    intro v _ hv
    rw [base128len]
    by_cases h : v < 128
    · simp [h]
    · simp only [h, if_neg, ite_false]
      have hn : 0 < n := by
        rcases Nat.eq_zero_or_pos n with h0 | h0
        · subst h0
          norm_num at hv
          omega
        · exact h0
      have hlt : v >>> 7 < 128 ^ n := by
        rw [shiftRight7_eq]
        apply Nat.div_lt_of_lt_mul
        have hp : (128 : Nat) ^ (n + 1) = 128 * 128 ^ n := pow_succ' 128 n
        omega
      have := ih (v >>> 7) hn hlt
      omega

theorem base128len_eq (k : Nat) :
    ∀ v : Nat, 128 ^ k ≤ v → v < 128 ^ (k + 1) → base128len v = k + 1 := by
  induction k with
  | zero =>
    intro v _ h2
    norm_num at h2
    rw [base128len]
    simp [h2]
  | succ n ih =>
    intro v h1 h2
    have hge : 128 ≤ v := by
      have : (128 : Nat) ^ 1 ≤ 128 ^ (n + 1) :=
        Nat.pow_le_pow_right (by norm_num) (by omega)
      norm_num at this
      omega
    rw [base128len, if_neg (by omega), shiftRight7_eq]
    have hd1 : 128 ^ n ≤ v / 128 := by
      rw [Nat.le_div_iff_mul_le (by norm_num)]
      calc 128 ^ n * 128 = 128 ^ (n + 1) := (pow_succ 128 n).symm
        _ ≤ v := h1
    have hd2 : v / 128 < 128 ^ (n + 1) := by
      apply Nat.div_lt_of_lt_mul
      calc v < 128 ^ (n + 2) := h2
        _ = 128 * 128 ^ (n + 1) := pow_succ' 128 (n + 1)
    rw [ih (v / 128) hd1 hd2]
    omega

theorem calculateVarIntLength_eq (v : Nat) (h : v < 2 ^ 64) :
    calculateVarIntLength v = base128len v := by
  unfold calculateVarIntLength
  have e1 := shiftRight_eq_zero_iff v 7
  have e2 := shiftRight_eq_zero_iff v 14
  have e3 := shiftRight_eq_zero_iff v 21
  have e4 := shiftRight_eq_zero_iff v 28
  have e5 := shiftRight_eq_zero_iff v 35
  have e6 := shiftRight_eq_zero_iff v 42
  have e7 := shiftRight_eq_zero_iff v 49
  have e8 := shiftRight_eq_zero_iff v 56
  have e9 := shiftRight_eq_zero_iff v 63
  split_ifs with h1 h2 h3 h4 h5 h6 h7 h8 h9
  · rw [e1] at h1
    rw [base128len]
    simp [show v < 128 by omega]
  · rw [e1] at h1; rw [e2] at h2
    exact (base128len_eq 1 v (by norm_num; omega) (by norm_num; omega)).symm
  · rw [e2] at h2; rw [e3] at h3
    exact (base128len_eq 2 v (by norm_num; omega) (by norm_num; omega)).symm
  · rw [e3] at h3; rw [e4] at h4
    exact (base128len_eq 3 v (by norm_num; omega) (by norm_num; omega)).symm
  · rw [e4] at h4; rw [e5] at h5
    exact (base128len_eq 4 v (by norm_num; omega) (by norm_num; omega)).symm
  · rw [e5] at h5; rw [e6] at h6
    exact (base128len_eq 5 v (by norm_num; omega) (by norm_num; omega)).symm
  · rw [e6] at h6; rw [e7] at h7
    exact (base128len_eq 6 v (by norm_num; omega) (by norm_num; omega)).symm
  · rw [e7] at h7; rw [e8] at h8
    exact (base128len_eq 7 v (by norm_num; omega) (by norm_num; omega)).symm
  · rw [e8] at h8; rw [e9] at h9
    exact (base128len_eq 8 v (by norm_num; omega) (by norm_num; omega)).symm
  · rw [e9] at h9
    exact (base128len_eq 9 v (by norm_num; omega) (by norm_num; omega)).symm

theorem two_pow_64_lt_pow10 : (2 : Nat) ^ 64 < 128 ^ 10 := by norm_num

theorem emitVarIntRaw_decode (v : Nat) (h : v < 2 ^ 64) :
    decodeVarint (emitVarIntRaw v) = v :=
  (emitVarIntRawLoop_spec 10 v (by omega)
    (lt_trans h two_pow_64_lt_pow10)).1

theorem emitVarIntRaw_length (v : Nat) (h : v < 2 ^ 64) :
    (emitVarIntRaw v).length = base128len v :=
  (emitVarIntRawLoop_spec 10 v (by omega)
    (lt_trans h two_pow_64_lt_pow10)).2.1

theorem emitVarIntRaw_decodeFirst (v : Nat) (rest : List Nat) (h : v < 2 ^ 64) :
    decodeFirstVarint (emitVarIntRaw v ++ rest) = v :=
  (emitVarIntRawLoop_spec 10 v (by omega)
    (lt_trans h two_pow_64_lt_pow10)).2.2 rest

theorem decodeVarint_lt (bs : List Nat) : decodeVarint bs < 128 ^ bs.length := by
  induction bs with
  | nil => simp [decodeVarint]
  | cons b rest ih =>
    simp only [decodeVarint, List.length_cons, pow_succ]
    have hm : b % 128 < 128 := Nat.mod_lt _ (by norm_num)
    omega

theorem xor_two_pow_sub_one (n a : Nat) (h : a < 2 ^ n) :
    a ^^^ (2 ^ n - 1) = 2 ^ n - 1 - a := by
  apply Nat.eq_of_testBit_eq
  intro i
  rw [Nat.testBit_xor]
  have hones : Nat.testBit (2 ^ n - 1) i = decide (i < n) :=
    Nat.testBit_two_pow_sub_one n i
  have hsub : 2 ^ n - 1 - a = 2 ^ n - (a + 1) := by omega
  rw [hsub, Nat.testBit_two_pow_sub_succ h i, hones]
  by_cases hi : i < n
  · cases hb : a.testBit i <;> simp [hi, hb]
  · have hbf : a.testBit i = false := by
      apply Nat.testBit_lt_two_pow
      calc a < 2 ^ n := h
        _ ≤ 2 ^ i := Nat.pow_le_pow_right (by norm_num) (by omega)
    simp [hi, hbf]

theorem toUInt64_cast (v : Int) : (toUInt64 v : Int) = v % 2 ^ 64 := by
  unfold toUInt64
  exact Int.toNat_of_nonneg (Int.emod_nonneg v (by norm_num))

theorem toUInt64_lt (v : Int) : toUInt64 v < 2 ^ 64 := by
  have h1 := toUInt64_cast v
  have h2 := Int.emod_lt_of_pos v (show (0 : Int) < 2 ^ 64 by norm_num)
  omega

theorem toUInt64_double (v : Int) : toUInt64 v * 2 % 2 ^ 64 = toUInt64 (2 * v) := by
  have h1 := toUInt64_cast v
  have h2 := toUInt64_cast (2 * v)
  have h3 := toUInt64_lt v
  have h4 := toUInt64_lt (2 * v)
  omega

theorem convertToZigZag_of_nonneg (v : Int) (h1 : 0 ≤ v) (h2 : v < 2 ^ 63) :
    (convertToZigZag v : Int) = 2 * v := by
  simp only [convertToZigZag, if_pos h1]
  have hc := toUInt64_cast v
  have hl := toUInt64_lt v
  omega

theorem convertToZigZag_of_neg (v : Int) (h1 : -2 ^ 63 ≤ v) (h2 : v < 0) :
    (convertToZigZag v : Int) = -2 * v - 1 := by
  simp only [convertToZigZag, if_neg (not_le.mpr h2)]
  have hc := toUInt64_cast v
  have hl := toUInt64_lt v
  omega

theorem convertToZigZag_lt (v : Int) : convertToZigZag v < 2 ^ 64 := by
  simp only [convertToZigZag]
  have hl := toUInt64_lt v
  by_cases hv : 0 ≤ v <;> simp [hv] <;> omega

theorem zigZagFormula_eq (v : Int) :
    convertToZigZag v = zigZagFormula v := by
  simp only [convertToZigZag, zigZagFormula]
  by_cases hv : 0 ≤ v
  · rw [if_pos hv, if_neg (not_lt.mpr hv)]
    have hz : toUInt64 0 = 0 := by decide
    rw [hz, Nat.xor_zero, toUInt64_double]
  · rw [if_neg hv, if_pos (not_le.mp hv)]
    have hm1 : toUInt64 (-1) = 2 ^ 64 - 1 := by decide
    rw [hm1, toUInt64_double, xor_two_pow_sub_one 64 _ (toUInt64_lt (2 * v))]

theorem unZigZag_leftInverse (v : Int) (h1 : -2 ^ 63 ≤ v) (h2 : v < 2 ^ 63) :
    unZigZag (convertToZigZag v) = v := by
  by_cases hv : 0 ≤ v
  · have hm := convertToZigZag_of_nonneg v hv h2
    have hpar : convertToZigZag v % 2 = 0 := by omega
    rw [unZigZag, if_pos hpar]
    omega
  · have hm := convertToZigZag_of_neg v h1 (not_le.mp hv)
    have hpar : ¬convertToZigZag v % 2 = 0 := by omega
    rw [unZigZag, if_neg hpar]
    omega

/-- C1: for every unsigned 64-bit value n, decoding the bytes emitted by
emitVarIntRaw n as a little-endian base-128 varint yields n; the number of
bytes emitted equals calculateVarIntLength n; the encoding is the shortest
possible (no nonempty byte list decoding to n is shorter), at most 10 bytes
are emitted, and exactly one byte 0x00 is emitted when n = 0. -/
theorem varint_roundtrip_spec (n : Nat) (h : n < 2 ^ 64) :
    decodeVarint (emitVarIntRaw n) = n ∧
    (emitVarIntRaw n).length = calculateVarIntLength n ∧
    (emitVarIntRaw n).length ≤ 10 ∧
    (∀ bs : List Nat, bs ≠ [] → decodeVarint bs = n →
      (emitVarIntRaw n).length ≤ bs.length) ∧
    emitVarIntRaw 0 = [0] := by
  have hlen := emitVarIntRaw_length n h
  refine ⟨emitVarIntRaw_decode n h, ?_, ?_, ?_, by decide⟩
  · rw [hlen, calculateVarIntLength_eq n h]
  · rw [hlen]
    exact base128len_le 10 n (by omega) (lt_trans h two_pow_64_lt_pow10)
  · intro bs hne hdec
    rw [hlen]
    have hlt : n < 128 ^ bs.length := hdec ▸ decodeVarint_lt bs
    have hpos : 0 < bs.length := List.length_pos.mpr hne
    exact base128len_le bs.length n hpos hlt

/-- Witness for C1 at n = 300. -/
theorem varint_roundtrip_spec_witness :
    decodeVarint (emitVarIntRaw 300) = 300 ∧
    (emitVarIntRaw 300).length = calculateVarIntLength 300 :=
  ⟨(varint_roundtrip_spec 300 (by decide)).1,
   (varint_roundtrip_spec 300 (by decide)).2.1⟩

/-- C4: convertToZigZag is a pure total function on signed 64-bit integers
equal to the formula (n << 1) xor (n >> 63) with arithmetic shift; it maps
0 to 0, -1 to 1, 1 to 2, -2 to 3, INT64_MIN to UINT64_MAX and INT64_MAX to
UINT64_MAX - 1, and unZigZag inverts it on every int64 value. -/
theorem convertToZigZag_spec :
    (∀ v : Int, -2 ^ 63 ≤ v → v < 2 ^ 63 →
      convertToZigZag v = zigZagFormula v ∧
      unZigZag (convertToZigZag v) = v) ∧
    convertToZigZag 0 = 0 ∧
    convertToZigZag (-1) = 1 ∧
    convertToZigZag 1 = 2 ∧
    convertToZigZag (-2) = 3 ∧
    convertToZigZag (-2 ^ 63) = 2 ^ 64 - 1 ∧
    convertToZigZag (2 ^ 63 - 1) = 2 ^ 64 - 2 := by
  refine ⟨fun v h1 h2 => ⟨zigZagFormula_eq v, unZigZag_leftInverse v h1 h2⟩,
    ?_, ?_, ?_, ?_, ?_, ?_⟩ <;> decide

/-- Witness for C4 at v = -5. -/
theorem convertToZigZag_spec_witness :
    convertToZigZag (-5) = zigZagFormula (-5) ∧
    unZigZag (convertToZigZag (-5)) = -5 :=
  convertToZigZag_spec.1 (-5) (by decide) (by decide)

theorem foldl_add_shift {A : Type} (g : A → Nat) :
    ∀ (xs : List A) (a : Nat),
      xs.foldl (fun len v => len + g v) a = a + xs.foldl (fun len v => len + g v) 0 := by
  intro xs
  induction xs with
  | nil => intro a; simp
  | cons x xs ih =>
    intro a
    simp only [List.foldl_cons]
    rw [ih (a + g x), ih (0 + g x)]
    omega

theorem emitVarIntRaw_length_calc (x : Nat) (h : x < 2 ^ 64) :
    (emitVarIntRaw x).length = calculateVarIntLength x := by
  rw [emitVarIntRaw_length x h, calculateVarIntLength_eq x h]

theorem calculateVarIntPackedLength_eq (xs : List Nat) (h : ∀ x ∈ xs, x < 2 ^ 64) :
    calculateVarIntPackedLength xs = (xs.flatMap fun x => emitVarIntRaw x).length := by
  induction xs with
  | nil => simp [calculateVarIntPackedLength]
  | cons x xs ih =>
    have hx : x < 2 ^ 64 := h x (by simp)
    have ih2 := ih fun y hy => h y (by simp [hy])
    simp only [calculateVarIntPackedLength, List.foldl_cons, List.flatMap_cons,
      List.length_append] at ih2 ⊢
    rw [foldl_add_shift]
    rw [emitVarIntRaw_length_calc x hx]
    omega

theorem calculateSignedVarIntPackedLength_eq (xs : List Int) :
    calculateSignedVarIntPackedLength xs =
      (xs.flatMap fun x => emitVarIntRaw (convertToZigZag x)).length := by
  induction xs with
  | nil => simp [calculateSignedVarIntPackedLength]
  | cons x xs ih =>
    simp only [calculateSignedVarIntPackedLength, List.foldl_cons, List.flatMap_cons,
      List.length_append] at ih ⊢
    rw [foldl_add_shift]
    rw [emitVarIntRaw_length_calc _ (convertToZigZag_lt x)]
    omega

theorem bytesOfValue_length (e : Endian) (w v : Nat) :
    (bytesOfValue e w v).length = w := by
  cases e <;> simp [bytesOfValue]

theorem flatMap_bytesOfValue_length (e : Endian) (w : Nat) (xs : List Nat) :
    (xs.flatMap fun x => bytesOfValue e w x).length = xs.length * w := by
  induction xs with
  | nil => simp
  | cons x xs ih =>
    simp only [List.flatMap_cons, List.length_append, List.length_cons, ih,
      bytesOfValue_length]
    ring

/-- C2: for every field number and every element sequence, each packed
emission produces exactly one LengthDelimited tag, then a varint encoding
the byte count of the payload that follows, then the concatenation of the
per-element payload encodings (the singular emissions minus their tags); an
empty sequence yields the tag followed by the single byte 0x00.  Varint
elements are given as their uint64 images, signed elements as their int64
images, matching the conversions in the source. -/
theorem packed_emission_spec (f : Nat) :
    (∀ x : Nat, emitVarInt f x = emitTag .VarInt f ++ emitVarIntRaw x) ∧
    (∀ x : Int,
      emitSignedVarInt f x = emitTag .VarInt f ++ emitVarIntRaw (convertToZigZag x)) ∧
    (∀ e x, emitI32 e f x = emitTag .I32 f ++ bytesOfValue e 4 x) ∧
    (∀ e x, emitI64 e f x = emitTag .I64 f ++ bytesOfValue e 8 x) ∧
    (∀ xs : List Nat, (∀ x ∈ xs, x < 2 ^ 64) →
      emitVarIntPacked f xs =
        emitTag .LengthDelimited f
          ++ emitVarIntRaw (xs.flatMap fun x => emitVarIntRaw x).length
          ++ xs.flatMap fun x => emitVarIntRaw x) ∧
    (∀ xs : List Int,
      emitSignedVarIntPacked f xs =
        emitTag .LengthDelimited f
          ++ emitVarIntRaw (xs.flatMap fun x => emitVarIntRaw (convertToZigZag x)).length
          ++ xs.flatMap fun x => emitVarIntRaw (convertToZigZag x)) ∧
    (∀ e (xs : List Nat),
      emitI32Packed e f xs =
        emitTag .LengthDelimited f
          ++ emitVarIntRaw (xs.flatMap fun x => bytesOfValue e 4 x).length
          ++ xs.flatMap fun x => bytesOfValue e 4 x) ∧
    (∀ e (xs : List Nat),
      emitI64Packed e f xs =
        emitTag .LengthDelimited f
          ++ emitVarIntRaw (xs.flatMap fun x => bytesOfValue e 8 x).length
          ++ xs.flatMap fun x => bytesOfValue e 8 x) ∧
    emitVarIntPacked f [] = emitTag .LengthDelimited f ++ [0] ∧
    emitSignedVarIntPacked f [] = emitTag .LengthDelimited f ++ [0] ∧
    (∀ e, emitI32Packed e f [] = emitTag .LengthDelimited f ++ [0]) ∧
    (∀ e, emitI64Packed e f [] = emitTag .LengthDelimited f ++ [0]) := by
  refine ⟨fun x => rfl, fun x => rfl, fun e x => rfl, fun e x => rfl,
    ?_, ?_, ?_, ?_, ?_, ?_, ?_, ?_⟩
  · intro xs h
    rw [emitVarIntPacked, calculateVarIntPackedLength_eq xs h]
  · intro xs
    rw [emitSignedVarIntPacked, calculateSignedVarIntPackedLength_eq xs]
  · intro e xs
    rw [emitI32Packed, flatMap_bytesOfValue_length e 4 xs]
  · intro e xs
    rw [emitI64Packed, flatMap_bytesOfValue_length e 8 xs]
  · simp [emitVarIntPacked, calculateVarIntPackedLength]
    decide
  · simp [emitSignedVarIntPacked, calculateSignedVarIntPackedLength]
    decide
  · intro e
    simp [emitI32Packed]
    decide
  · intro e
    simp [emitI64Packed]
    decide

/-- Witness for C2: the varint-packed equation at field 1 with elements 0
and 300. -/
theorem packed_emission_spec_witness :
    emitVarIntPacked 1 [0, 300] =
      emitTag .LengthDelimited 1
        ++ emitVarIntRaw ([0, 300].flatMap fun x => emitVarIntRaw x).length
        ++ [0, 300].flatMap fun x => emitVarIntRaw x :=
  (packed_emission_spec 1).2.2.2.2.1 [0, 300] (by decide)

/-- C5: a negative value emitted through Builder::emitInt32 or
Builder::emitInt64 equals emitVarInt applied to the value sign-extended to
64 bits, and the varint payload is then exactly 10 bytes; in particular
emitInt32 at field 1 and value -1 emits 08 FF FF FF FF FF FF FF FF FF 01. -/
theorem int_sign_extension_spec (f : Nat) :
    (∀ v : Int, -2 ^ 31 ≤ v → v < 0 →
      emitInt32 f v = emitVarInt f (toUInt64 v) ∧
      (emitVarIntRaw (toUInt64 v)).length = 10) ∧
    (∀ v : Int, -2 ^ 63 ≤ v → v < 0 →
      emitInt64 f v = emitVarInt f (toUInt64 v) ∧
      (emitVarIntRaw (toUInt64 v)).length = 10) ∧
    emitInt32 1 (-1) =
      [0x08, 0xFF, 0xFF, 0xFF, 0xFF, 0xFF, 0xFF, 0xFF, 0xFF, 0xFF, 0x01] := by
  have key : ∀ v : Int, -2 ^ 63 ≤ v → v < 0 →
      (emitVarIntRaw (toUInt64 v)).length = 10 := by
    intro v h1 h2
    have hc := toUInt64_cast v
    have hge : 2 ^ 63 ≤ toUInt64 v := by omega
    have hlt : toUInt64 v < 2 ^ 64 := toUInt64_lt v
    rw [emitVarIntRaw_length _ hlt]
    exact base128len_eq 9 (toUInt64 v) (by norm_num; omega) (by norm_num; omega)
  refine ⟨fun v h1 h2 => ⟨rfl, key v (by omega) h2⟩,
    fun v h1 h2 => ⟨rfl, key v h1 h2⟩, by decide⟩

/-- Witness for C5 at field 1 and value -1. -/
theorem int_sign_extension_spec_witness :
    emitInt32 1 (-1) = emitVarInt 1 (toUInt64 (-1)) ∧
    (emitVarIntRaw (toUInt64 (-1))).length = 10 :=
  (int_sign_extension_spec 1).1 (-1) (by decide) (by decide)

/-- C6: for every field number in the valid range and every emittable wire
type, the first varint decodable from the emitted tag (followed by any
payload bytes) equals the field number shifted left by 3 bits, bitwise-or
the wire type code. -/
theorem tag_spec (f : Nat) (w : WireType) (rest : List Nat)
    (_hf1 : MinField ≤ f) (hf2 : f ≤ MaxField)
    (hw : w = WireType.VarInt ∨ w = WireType.I64 ∨
      w = WireType.LengthDelimited ∨ w = WireType.I32) :
    decodeFirstVarint (emitTag w f ++ rest) = f <<< 3 ||| w.toUnderlying := by
  have hwv : w.toUnderlying < 8 := by
    rcases hw with h | h | h | h <;> subst h <;> decide
  have hfm : f % 2 ^ 32 = f := by
    apply Nat.mod_eq_of_lt
    unfold MaxField at hf2
    omega
  have htag : makeTag f w.toUnderlying = f * 8 + w.toUnderlying := by
    unfold makeTag
    rw [hfm]
    apply Nat.mod_eq_of_lt
    unfold MaxField at hf2
    omega
  unfold emitTag
  rw [htag]
  rw [emitVarIntRaw_decodeFirst _ rest
    (by unfold MaxField at hf2; norm_num; omega)]
  have h2 : f <<< 3 = 2 ^ 3 * f := by
    rw [Nat.shiftLeft_eq, Nat.mul_comm]
  rw [h2, ← Nat.mul_add_lt_is_or (show w.toUnderlying < 2 ^ 3 by omega) f]
  ring

/-- Witness for C6 at field 1 with wire type I32 and a one-byte payload. -/
theorem tag_spec_witness :
    decodeFirstVarint (emitTag .I32 1 ++ [7]) =
      1 <<< 3 ||| WireType.toUnderlying .I32 :=
  tag_spec 1 .I32 [7] (by decide) (by decide)
    (Or.inr (Or.inr (Or.inr rfl)))

theorem foldl_append_emit {A : Type} (g : A → List Nat) :
    ∀ (xs : List A) (init : List Nat),
      xs.foldl (fun out x => out ++ g x) init = init ++ (xs.map g).flatten := by
  intro xs
  induction xs with
  | nil => intro init; simp
  | cons x xs ih =>
    intro init
    simp only [List.foldl_cons, List.map_cons, List.flatten_cons, ih (init ++ g x),
      List.append_assoc]

/-- C7: each repeated (non-packed) emission is the byte-wise concatenation
of the singular emissions of its elements, in iteration order: one
independent tag-plus-value record per element. -/
theorem repeated_concat_spec (f : Nat) :
    (∀ xs : List Int,
      emitInt32Repeated f xs = (xs.map fun x => emitInt32 f x).flatten) ∧
    (∀ xs : List Nat,
      emitUInt64Repeated f xs = (xs.map fun x => emitUInt64 f x).flatten) ∧
    (∀ xs : List Int,
      emitSInt32Repeated f xs = (xs.map fun x => emitSInt32 f x).flatten) ∧
    (∀ xs : List Bool,
      emitBoolRepeated f xs = (xs.map fun x => emitBool f x).flatten) ∧
    (∀ e (xs : List Nat),
      emitFixed32Repeated e f xs = (xs.map fun x => emitFixed32 e f x).flatten) ∧
    (∀ e (xs : List Nat),
      emitFixed64Repeated e f xs = (xs.map fun x => emitFixed64 e f x).flatten) ∧
    (∀ xs : List (List Nat),
      emitStringRepeated f xs = (xs.map fun s => emitString f s).flatten) := by
  refine ⟨?_, ?_, ?_, ?_, ?_, ?_, ?_⟩
  · intro xs
    rw [emitInt32Repeated, foldl_append_emit]
    simp [emitInt32]
  · intro xs
    rw [emitUInt64Repeated, foldl_append_emit]
    simp [emitUInt64]
  · intro xs
    rw [emitSInt32Repeated, foldl_append_emit]
    simp [emitSInt32]
  · intro xs
    rw [emitBoolRepeated, foldl_append_emit]
    simp
  · intro e xs
    rw [emitFixed32Repeated, foldl_append_emit]
    simp [emitFixed32]
  · intro e xs
    rw [emitFixed64Repeated, foldl_append_emit]
    simp [emitFixed64]
  · intro xs
    rw [emitStringRepeated, foldl_append_emit]
    simp

/-- Standard C++ integer types up to 64 bits wide, as quantified over by
the FitsIn trait and the emitEnum checks; i32 also stands for int, u32 for
unsigned int, and i64 for long long on the LP64 targets LLVM supports. -/
inductive CppIntTy
  | i8
  | u8
  | i16
  | u16
  | i32
  | u32
  | i64
  | u64
deriving DecidableEq

/-- Width in bits of each type. -/
def CppIntTy.bits : CppIntTy → Nat
  | .i8 => 8
  | .u8 => 8
  | .i16 => 16
  | .u16 => 16
  | .i32 => 32
  | .u32 => 32
  | .i64 => 64
  | .u64 => 64

/-- Signedness of each type. -/
def CppIntTy.signed : CppIntTy → Bool
  | .i8 => true
  | .u8 => false
  | .i16 => true
  | .u16 => false
  | .i32 => true
  | .u32 => false
  | .i64 => true
  | .u64 => false

/-- std::numeric_limits min of the type. -/
def CppIntTy.tmin (t : CppIntTy) : Int :=
  if t.signed then -(2 ^ (t.bits - 1)) else 0

/-- std::numeric_limits max of the type. -/
def CppIntTy.tmax (t : CppIntTy) : Int :=
  if t.signed then 2 ^ (t.bits - 1) - 1 else 2 ^ t.bits - 1

/-- std::numeric_limits digits of the type: value bits, excluding the sign
bit for signed types. -/
def CppIntTy.digits (t : CppIntTy) : Nat :=
  if t.signed then t.bits - 1 else t.bits

/-- Value of `static_cast<long long>(v)`: two's-complement reduction into
the signed 64-bit range. -/
def castLL (v : Int) : Int := (v + 2 ^ 63) % 2 ^ 64 - 2 ^ 63

/-- Integral promotion: types of rank below int promote to int (int can
represent all their values). -/
def CppIntTy.promote (t : CppIntTy) : CppIntTy :=
  if t.bits < 32 then .i32 else t

/-- Common type of the usual arithmetic conversions for two promoted
integer operand types: with equal signedness the larger rank wins; with
mixed signedness the unsigned type wins at equal or greater rank, otherwise
the larger signed type (which can represent every value of the narrower
unsigned type). -/
def commonType (a b : CppIntTy) : CppIntTy :=
  let a2 := a.promote
  let b2 := b.promote
  if a2.signed = b2.signed then
    if b2.bits ≤ a2.bits then a2 else b2
  else
    let s := if a2.signed then a2 else b2
    let u := if a2.signed then b2 else a2
    if s.bits ≤ u.bits then u else s

/-- Conversion of an integer value to a C++ integer type: reduction modulo
2 to the type's width, shifted into the signed range when the destination
is signed. -/
def convTo (t : CppIntTy) (v : Int) : Int :=
  let m := v % 2 ^ t.bits
  if t.signed ∧ 2 ^ (t.bits - 1) ≤ m then m - 2 ^ t.bits else m

/-- The C++ comparison `a <= b` between operands of integer types ta and
tb: both operands are converted to the common type of the usual arithmetic
conversions, then compared. -/
def cppLe (ta : CppIntTy) (a : Int) (tb : CppIntTy) (b : Int) : Bool :=
  let c := commonType ta tb
  decide (convTo c a ≤ convTo c b)

/-- detail::FitsInImpl from Protobuf.h: the destination minimum cast to
long long is at most the source minimum cast to long long, and the source
maximum is at most the destination maximum under the usual arithmetic
conversions (the source performs that comparison without casts). -/
def FitsInImpl (S D : CppIntTy) : Bool :=
  decide (castLL D.tmin ≤ castLL S.tmin) && cppLe S S.tmax D D.tmax

/-- FitsIn from Protobuf.h: the value of detail::FitsInImpl. -/
def FitsIn (S D : CppIntTy) : Bool := FitsInImpl S D

/-- Condition of the assertion in Emitter::emitEnum, with C++ conversion
semantics: `INT32_MIN <= IntValue && IntValue <= INT32_MAX`, where IntValue
has integral type t and value v. -/
def emitEnumAssert (t : CppIntTy) (v : Int) : Bool :=
  cppLe .i32 (CppIntTy.tmin .i32) t v && cppLe t v .i32 (CppIntTy.tmax .i32)

/-- Static check of Emitter::emitEnum for integral arguments:
`std::numeric_limits<ValueType>::digits <= 32`. -/
def emitEnumStaticOk (t : CppIntTy) : Bool := decide (t.digits ≤ 32)

/-- Emission performed by Emitter::emitEnum after its assertion: emitVarInt
of the value cast to uint64 (sign extension). -/
def emitEnum (f : Nat) (v : Int) : List Nat := emitVarInt f (toUInt64 v)

/-- C10: FitsIn S D is true exactly when the range of destination type D
contains the range of source type S, for all pairs of standard 8/16/32/64
bit signed and unsigned integer types. -/
theorem FitsIn_spec (S D : CppIntTy) :
    FitsIn S D = true ↔
      CppIntTy.tmin D ≤ CppIntTy.tmin S ∧ CppIntTy.tmax S ≤ CppIntTy.tmax D := by
  cases S <;> cases D <;> decide

/-- C9, evaluation at the failing input: for an argument of type
unsigned int (u32), the static check of emitEnum passes and the value 5
lies in the signed 32-bit range, yet the assertion condition evaluates to
false, because `INT32_MIN <= IntValue` compares int against unsigned int
and converts INT32_MIN to 2147483648u.  For an int argument the assertion
behaves as the claim states. -/
theorem emitEnum_assert_code_bug :
    emitEnumStaticOk .u32 = true ∧
    CppIntTy.tmin .i32 ≤ (5 : Int) ∧
    (5 : Int) ≤ CppIntTy.tmax .i32 ∧
    emitEnumAssert .u32 5 = false ∧
    (∀ v : Int, CppIntTy.tmin .i32 ≤ v → v ≤ CppIntTy.tmax .i32 →
      emitEnumAssert .i32 v = true ∧ emitEnum 1 v = emitVarInt 1 (toUInt64 v)) := by
  refine ⟨by decide, by decide, by decide, by decide, ?_⟩
  intro v h1 h2
  refine ⟨?_, rfl⟩
  simp only [emitEnumAssert, cppLe, commonType, convTo, CppIntTy.promote,
    CppIntTy.signed, CppIntTy.bits, CppIntTy.tmin, CppIntTy.tmax] at h1 h2 ⊢
  norm_num at h1 h2 ⊢
  omega

/-- Witness for C9 at v = 5 of type int. -/
theorem emitEnum_assert_code_bug_witness :
    emitEnumAssert .i32 5 = true ∧ emitEnum 1 5 = emitVarInt 1 (toUInt64 5) :=
  emitEnum_assert_code_bug.2.2.2.2 5 (by decide) (by decide)

/-- C3, evaluation at the failing input: emitEnumPacked at field 1 with the
single enum value 300 emits the tag 0x0A, then the length prefix 0x01 (the
element count of the container), then the 2-byte varint AC 02 encoding 300;
the length prefix does not equal the byte count of the payload that
follows. -/
theorem emitEnumPacked_code_bug :
    emitEnumPacked 1 [300] = [0x0A, 0x01, 0xAC, 0x02] ∧
    ([300].flatMap fun x : Int => emitVarIntRaw (toUInt64 x)).length = 2 ∧
    decodeFirstVarint [0x01, 0xAC, 0x02] = 1 := by
  refine ⟨by decide, by decide, by decide⟩

/-- C8: emitI32 emits the I32 tag then exactly the 4 bytes of the value's
object representation, with no varint encoding and no length prefix — but
those bytes are in host byte order (the source copies them through
reinterpret_cast without a byte swap): on a little-endian host
emitFixed32(1, 65537) emits 0D 01 00 01 00 as the claim states, while on a
big-endian host the same call emits 0D 00 01 00 01. -/
theorem emitI32_host_order :
    (∀ e f v, emitI32 e f v = emitTag .I32 f ++ bytesOfValue e 4 v ∧
      (bytesOfValue e 4 v).length = 4) ∧
    (∀ e f v, emitI64 e f v = emitTag .I64 f ++ bytesOfValue e 8 v ∧
      (bytesOfValue e 8 v).length = 8) ∧
    emitFixed32 .little 1 65537 = [0x0D, 0x01, 0x00, 0x01, 0x00] ∧
    emitFixed32 .big 1 65537 = [0x0D, 0x00, 0x01, 0x00, 0x01] := by
  refine ⟨fun e f v => ⟨rfl, bytesOfValue_length e 4 v⟩,
    fun e f v => ⟨rfl, bytesOfValue_length e 8 v⟩, by decide, by decide⟩

end protobuf
